import Mathlib

/-!
Verification of the worker-pool coordination layer implemented in
`elk/inference_server/fsdp.py`.

The development shallowly embeds the coordination logic of that file:

* `shard_seq` — the sharder (`shard_seq`, lines 87-89);
* `TaskMessage`, `ResultMessage`, queue items — the data model (lines 49-73);
* `processRecords` / `processTask` / `workerLoop` — the worker loop
  (`_worker`, lines 328-384), with the model forward pass, the unpickled
  transform and the device moves abstracted into a single per-record
  function `step : record → Except exc payload`;
* `round_robin` / `roundRobinItems` — the collector (`round_robin`,
  lines 430-457), driven by an explicit list of poll outcomes;
* `signalLoop` / `shutdownTrace` / `shutdown` — `InferenceServer.shutdown`
  (lines 179-191), with the behaviour of the queue, the manager and the
  process-context join supplied as environment parameters;
* `createResultQueueForThread` / `lookupQueue` — the result-queue registry
  (`InferenceServer._create_result_queue_for_thread`, lines 208-213);
* `imapTasks` / `imapNumToWait` — the dispatch half of
  `InferenceServer.imap` (lines 215-238).
-/

namespace FsdpServer

/-! ### Sharder (`shard_seq`, fsdp.py lines 87-89)

Python's extended slice `seq[i::W]` keeps the elements at indices
`i, i + W, i + 2W, ...`.  `everyNthAux W l k` models the tail of such a
slice: it skips `k` more elements and then keeps every `W`-th one. -/

/-- Models the tail of a Python extended slice: skip `k` elements, keep the
next one, then keep every `stride`-th element after it. -/
def everyNthAux {α : Type _} (stride : Nat) : List α → Nat → List α
  | [], _ => []
  | a :: rest, 0 => a :: everyNthAux stride rest (stride - 1)
  | _ :: rest, k + 1 => everyNthAux stride rest k

/-- Models the Python slice `seq[0::stride]`. -/
def strideSlice {α : Type _} (stride : Nat) (l : List α) : List α :=
  everyNthAux stride l 0

/-- Embedding of `shard_seq` (fsdp.py lines 87-89):
`return [seq[i::num_shards] for i in range(num_shards)]`. -/
def shard_seq {α : Type _} (seq : List α) (num_shards : Nat) : List (List α) :=
  (List.range num_shards).map (fun i => strideSlice num_shards (seq.drop i))

/-! ### Data model (fsdp.py lines 39-73)

Caller identities (`ResultQueueID`, a thread-ident string in the source) are
modelled as natural numbers.  Record, model-output, payload and exception
types are parameters throughout. -/

/-- Embedding of `TaskMessage` (fsdp.py lines 49-56).  The dill-serialized
transform travels with the worker's `step` function instead of inside the
message, so only the routing id and the record batch remain here. -/
structure TaskMessage (ρ : Type _) where
  id : Nat
  data : List ρ
  deriving DecidableEq

/-- Embedding of `ResultMessage` (fsdp.py lines 59-64): routing id, payload
(`None` when an exception is being reported) and optional exception. -/
structure ResultMessage (π ε : Type _) where
  id : Nat
  data : Option π
  exception : Option ε
  deriving DecidableEq

/-- An element of a result queue: a `ResultMessage` or the completion-marker
string `sentinel` (fsdp.py lines 39-40, 68). -/
inductive QueueItem (π ε : Type _) where
  | message (m : ResultMessage π ε)
  | sentinel
  deriving DecidableEq

/-- An element of the task queue: a `TaskMessage` or the shutdown-signal
string `sentinel` (fsdp.py lines 39-40, 69). -/
inductive TaskQueueItem (ρ : Type _) where
  | task (t : TaskMessage ρ)
  | sentinel
  deriving DecidableEq

/-! ### Worker (`_worker`, fsdp.py lines 276-388)

One record's processing — moving inputs to the device, the forward pass,
applying the unpickled transform and moving outputs back (lines 341-373) —
is abstracted into a single function `step : ρ → Except ε π`: `.ok p` when
the record yields payload `p`, `.error e` when an exception `e` is raised
anywhere in that per-record block. -/

/-- Embedding of the `for record in data` loop inside the worker's
`try` block (fsdp.py lines 340-377): each successful record pushes a
payload-carrying `ResultMessage`; the first exception pushes a single
error-carrying `ResultMessage` (`data=None`) and — because the
`try`/`except` encloses the whole loop — ends the batch. -/
def processRecords {ρ π ε : Type _} (step : ρ → Except ε π) (id : Nat) :
    List ρ → List (QueueItem π ε)
  | [] => []
  | r :: rest =>
    match step r with
    | .ok p => .message ⟨id, some p, none⟩ :: processRecords step id rest
    | .error e => [.message ⟨id, none, some e⟩]

/-- Embedding of one task's processing (fsdp.py lines 340-380): the record
loop followed by the unconditional completion marker `put_nowait(sentinel)`
(line 380). -/
def processTask {ρ π ε : Type _} (step : ρ → Except ε π) (t : TaskMessage ρ) :
    List (QueueItem π ε) :=
  processRecords step t.id t.data ++ [.sentinel]

/-- Queue items produced for a task, each paired with the id of the result
queue it is pushed onto.  The worker resolves `result_queue = out_qs[msg.id]`
once per task (fsdp.py lines 337-339) and pushes every `ResultMessage` and
the completion marker onto that queue. -/
def workerTaskPushes {ρ π ε : Type _} (step : ρ → Except ε π) (t : TaskMessage ρ) :
    List (Nat × QueueItem π ε) :=
  (processTask step t).map (fun item => (t.id, item))

/-- Python truthiness of a task-queue element, as used by the loop condition
`while msg := task_queue.get()` (fsdp.py line 328): a `TaskMessage` instance
and the non-empty string `"sentinel"` are both truthy. -/
def pyTruthy {ρ : Type _} : TaskQueueItem ρ → Bool := fun _ => true

/-- How the worker loop ended. -/
inductive WorkerExit where
  | shutdownReturn (destroyedProcessGroup : Bool)
  | blockedOnGet
  deriving DecidableEq

/-- Embedding of the worker's task loop (fsdp.py lines 326-384), driven by
the list of task-queue elements this worker receives.  On a falsy element
the `while` condition would exit the loop and reach the
`dist.destroy_process_group()` cleanup (lines 382-384, guarded by
`fsdp_port is not None`); on the sentinel the worker returns from inside the
loop (line 332) without reaching that cleanup.  An exhausted list models a
worker blocked in `task_queue.get()`. -/
def workerLoop {ρ π ε : Type _} (fsdpEnabled : Bool) (step : ρ → Except ε π) :
    List (TaskQueueItem ρ) → List (Nat × QueueItem π ε) × WorkerExit
  | [] => ([], .blockedOnGet)
  | itm :: rest =>
    if pyTruthy itm = false then
      ([], .shutdownReturn fsdpEnabled)
    else
      match itm with
      | .sentinel => ([], .shutdownReturn false)
      | .task t =>
        let r := workerLoop fsdpEnabled step rest
        (workerTaskPushes step t ++ r.1, r.2)

/-! ### Result-queue registry (fsdp.py lines 76-84, 110-117, 208-213) -/

/-- A result-queue registry: association list from caller identity to queue
contents, modelling `self._result_queues`. -/
abbrev Registry (π ε : Type _) := List (Nat × List (QueueItem π ε))

/-- Looks a caller's result queue up in the registry. -/
def lookupQueue {π ε : Type _} (reg : Registry π ε) (qid : Nat) :
    Option (List (QueueItem π ε)) :=
  match reg with
  | [] => none
  | (k, q) :: rest => if k = qid then some q else lookupQueue rest qid

/-- Embedding of `InferenceServer._create_result_queue_for_thread`
(fsdp.py lines 208-213): a fresh empty queue is created, but it is only
installed if the caller identity has no registry entry yet; an existing
entry — with whatever items it still holds — is left untouched.  Entries
are never removed. -/
def createResultQueueForThread {π ε : Type _} (reg : Registry π ε) (qid : Nat) :
    Registry π ε :=
  if (lookupQueue reg qid).isSome then reg else reg ++ [(qid, [])]

/-- Items of a push stream delivered to the result queue keyed `qid`. -/
def deliver {π ε : Type _} (pushes : List (Nat × QueueItem π ε)) (qid : Nat) :
    List (QueueItem π ε) :=
  (pushes.filter (fun p => p.1 == qid)).map (fun p => p.2)

/-! ### Collector (`round_robin`, fsdp.py lines 430-457)

The collector polls `result_queue.get(timeout=0.01)`.  A poll outcome is a
pair `(t, it)`: `t` is the wall-clock time (`time.time()`, in seconds) at
which the poll returned, and `it` is `some` queue item or `none` when the
poll raised `queue.Empty`.  The generator is modelled as a function from the
finite list of poll outcomes to `none` — the loop is still blocked waiting
for more queue traffic — or `some (outcome, leftover, warningTimes)`:
the collection outcome (the yielded payloads in order, or the re-raised
exception), the poll outcomes it never consumed, and the times at which the
20-minute-silence warning (lines 443-448) was printed. -/

/-- Embedding of `round_robin` (fsdp.py lines 430-457).  Arguments: poll
outcomes, `remaining_workers`, and `last_message_time`. -/
def round_robin {π ε : Type _} :
    List (Nat × Option (QueueItem π ε)) → Nat → Nat →
      Option (Except ε (List (Option π)) × List (Nat × Option (QueueItem π ε)) × List Nat)
  | evs, 0, _ => some (.ok [], evs, [])
  | [], _ + 1, _ => none
  | (t, none) :: rest, n + 1, last =>
    (round_robin rest (n + 1) last).map
      (fun r => (r.1, r.2.1, if last + 1200 < t then t :: r.2.2 else r.2.2))
  | (t, some .sentinel) :: rest, n + 1, _ => round_robin rest n t
  | (t, some (.message m)) :: rest, n + 1, _ =>
    match m.exception with
    | some e => some (.error e, rest, [])
    | none =>
      (round_robin rest (n + 1) t).map
        (fun r => (r.1.map (fun l => m.data :: l), r.2.1, r.2.2))

/-- The timing-free core of `round_robin`: the same control flow driven by
the queue items alone (`queue.Empty` polls dropped, timestamps erased).
Returns `none` while the loop would still be waiting, otherwise the
collection outcome and the unconsumed queue items. -/
def roundRobinItems {π ε : Type _} :
    List (QueueItem π ε) → Nat → Option (Except ε (List (Option π)) × List (QueueItem π ε))
  | evs, 0 => some (.ok [], evs)
  | [], _ + 1 => none
  | .sentinel :: rest, n + 1 => roundRobinItems rest n
  | .message m :: rest, n + 1 =>
    match m.exception with
    | some e => some (.error e, rest)
    | none =>
      (roundRobinItems rest (n + 1)).map (fun r => (r.1.map (fun l => m.data :: l), r.2))

/-- Payloads carried by a list of queue items, in order (an error-carrying
message contributes its `data = none`; completion markers contribute
nothing).  These are exactly the values `round_robin` would yield. -/
def queueData {π ε : Type _} (l : List (QueueItem π ε)) : List (Option π) :=
  l.filterMap (fun it =>
    match it with
    | .message m => some m.data
    | .sentinel => none)

/-- A list of queue items is a completed error-free task output: payload
messages followed by the completion marker. -/
def okTaskOutput {π ε : Type _} (l : List (QueueItem π ε)) : Prop :=
  ∃ ms : List (ResultMessage π ε),
    l = ms.map .message ++ [.sentinel] ∧ ∀ m ∈ ms, m.exception = none

/-- Whether a queue item is a payload-carrying (non-error) result message. -/
def isSuccessItem {π ε : Type _} : QueueItem π ε → Bool
  | .message m => m.exception.isNone
  | .sentinel => false

/-- Whether a queue item is an error-carrying result message. -/
def isErrorItem {π ε : Type _} : QueueItem π ε → Bool
  | .message m => m.exception.isSome
  | .sentinel => false

/-! ### Dispatch side of `imap` (fsdp.py lines 215-238) -/

/-- Task messages enqueued by `InferenceServer.imap` (fsdp.py lines 224-232):
one `TaskMessage` per shard of `shard_seq(keywords, num_workers)`, all
carrying the caller's queue id. -/
def imapTasks {ρ : Type _} (records : List ρ) (numWorkers qid : Nat) :
    List (TaskMessage ρ) :=
  (shard_seq records numWorkers).map (fun shard => ⟨qid, shard⟩)

/-- The `num_to_wait` passed to `round_robin` by `imap` (fsdp.py line 236):
the number of shards. -/
def imapNumToWait {ρ : Type _} (records : List ρ) (numWorkers : Nat) : Nat :=
  (shard_seq records numWorkers).length

/-! ### Shutdown (`InferenceServer.shutdown`, fsdp.py lines 179-191)

The environment is abstracted: `put i` is the outcome of the `i`-th
`task_queue.put_nowait(sentinel)`, `managerShutdown` the outcome of
`self._manager.shutdown()`, and `joinWorkers` the outcome of
`self._process_ctx.join()` (which returns a `bool`).  Python exceptions are
classified just finely enough to model the `except` clauses. -/

/-- Python exception classes relevant to `shutdown`: `queue.Full` (raised by
`put_nowait` on a full queue), `queue.Empty` (the class the inner `except`
actually names), and anything else. -/
inductive PyExc where
  | full
  | empty
  | other
  deriving DecidableEq

/-- Embedding of the signal loop `for _ in range(self.num_workers)`
(fsdp.py lines 183-187): `signalLoop put i fuel` performs attempts
`i, i+1, ...` (`fuel` of them) and returns how many sentinel enqueues
succeeded together with the exception that escaped the loop, if any.  Only
`queue.Empty` is swallowed by the inner `except` clause; any other
exception — in particular `queue.Full` — escapes. -/
def signalLoop (put : Nat → Except PyExc Unit) : Nat → Nat → Nat × Option PyExc
  | _, 0 => (0, none)
  | i, fuel + 1 =>
    match put i with
    | .ok _ =>
      let r := signalLoop put (i + 1) fuel
      (r.1 + 1, r.2)
    | .error .empty => signalLoop put (i + 1) fuel
    | .error e => (0, some e)

/-- Observable trace of one `shutdown()` call. -/
structure ShutdownTrace where
  enqueued : Nat
  managerShutdownCalled : Bool
  joinCalled : Bool
  body : Except PyExc Bool

/-- Embedding of the body of `InferenceServer.shutdown` (fsdp.py lines
180-189), i.e. everything inside the outer `try`: the signal loop, then
`self._manager.shutdown()`, then `return self._process_ctx.join()`.
`body` is the outcome the outer `try` observes. -/
def shutdownTrace (numWorkers : Nat) (put : Nat → Except PyExc Unit)
    (managerShutdown : Except PyExc Unit) (joinWorkers : Except PyExc Bool) :
    ShutdownTrace :=
  let r := signalLoop put 0 numWorkers
  match r.2 with
  | some e => ⟨r.1, false, false, .error e⟩
  | none =>
    match managerShutdown with
    | .error e => ⟨r.1, true, false, .error e⟩
    | .ok _ =>
      match joinWorkers with
      | .error e => ⟨r.1, true, true, .error e⟩
      | .ok b => ⟨r.1, true, true, .ok b⟩

/-- Embedding of `InferenceServer.shutdown` (fsdp.py lines 179-191): the
body wrapped in `try: ... except Exception: return False`. -/
def shutdown (numWorkers : Nat) (put : Nat → Except PyExc Unit)
    (managerShutdown : Except PyExc Unit) (joinWorkers : Except PyExc Bool) : Bool :=
  match (shutdownTrace numWorkers put managerShutdown joinWorkers).body with
  | .ok b => b
  | .error _ => false

/-! ### Interleavings

Workers run concurrently, so the caller's result queue receives an
interleaving of the per-task push sequences: each step appends the head of
one of the sequences. -/

/-- Interleaving of a family of lists: `Interleaving ls out` holds when
`out` can be formed by repeatedly removing the head of some list of `ls`,
preserving each list's internal order. -/
inductive Interleaving {α : Type _} : List (List α) → List α → Prop where
  | nil (ls : List (List α)) (h : ∀ l ∈ ls, l = []) : Interleaving ls []
  | cons (ls : List (List α)) (i : Nat) (a : α) (rest out : List α)
      (hi : ls[i]? = some (a :: rest))
      (htail : Interleaving (ls.set i rest) out) : Interleaving ls (a :: out)

theorem everyNthAux_eq_drop {α : Type _} (stride : Nat) :
    ∀ (l : List α) (k : Nat), everyNthAux stride l k = strideSlice stride (l.drop k)
  | [], k => by simp [everyNthAux, strideSlice]
  | a :: rest, 0 => by simp [strideSlice]
  | a :: rest, k + 1 => by
    simp only [everyNthAux, List.drop_succ_cons]
    exact everyNthAux_eq_drop stride rest k

theorem everyNthAux_getElem? {α : Type _} (stride : Nat) (hs : 1 ≤ stride) :
    ∀ (l : List α) (k j : Nat), (everyNthAux stride l k)[j]? = l[k + j * stride]?
  | [], k, j => by simp [everyNthAux]
  | a :: rest, 0, 0 => by simp [everyNthAux]
  | a :: rest, 0, j + 1 => by
    have ih := everyNthAux_getElem? stride hs rest (stride - 1) j
    have hidx : 0 + (j + 1) * stride = (stride - 1 + j * stride) + 1 := by
      rw [Nat.succ_mul]; omega
    simp only [everyNthAux, hidx, List.getElem?_cons_succ, ih]
  | a :: rest, k + 1, j => by
    have ih := everyNthAux_getElem? stride hs rest k j
    have hidx : k + 1 + j * stride = (k + j * stride) + 1 := by omega
    simp only [everyNthAux, hidx, List.getElem?_cons_succ, ih]

theorem strideSlice_getElem? {α : Type _} (stride : Nat) (hs : 1 ≤ stride)
    (l : List α) (j : Nat) : (strideSlice stride l)[j]? = l[j * stride]? := by
  simpa using everyNthAux_getElem? stride hs l 0 j

theorem everyNthAux_length {α : Type _} (stride : Nat) (hs : 1 ≤ stride) :
    ∀ (l : List α) (k : Nat), k ≤ stride - 1 →
      (everyNthAux stride l k).length = (l.length + (stride - 1) - k) / stride
  | [], k, hk => by
    simp only [everyNthAux, List.length_nil]
    rw [Nat.div_eq_of_lt (by omega)]
  | a :: rest, 0, _ => by
    have ih := everyNthAux_length stride hs rest (stride - 1) (le_refl _)
    simp only [everyNthAux, List.length_cons, ih]
    rw [show rest.length + (stride - 1) - (stride - 1) = rest.length by omega]
    rw [show rest.length + 1 + (stride - 1) - 0 = rest.length + stride by omega]
    rw [Nat.add_div_right _ (by omega)]
  | a :: rest, k + 1, hk => by
    have ih := everyNthAux_length stride hs rest k (by omega)
    simp only [everyNthAux, List.length_cons, ih]
    congr 1
    omega

theorem strideSlice_length {α : Type _} (stride : Nat) (hs : 1 ≤ stride)
    (l : List α) : (strideSlice stride l).length = (l.length + (stride - 1)) / stride := by
  have h := everyNthAux_length stride hs l 0 (by omega)
  simpa [strideSlice] using h

theorem everyNthAux_sublist {α : Type _} (stride : Nat) :
    ∀ (l : List α) (k : Nat), (everyNthAux stride l k).Sublist l
  | [], _ => by simp [everyNthAux]
  | a :: rest, 0 => by
    simpa [everyNthAux] using
      List.Sublist.cons₂ a (everyNthAux_sublist stride rest (stride - 1))
  | a :: rest, k + 1 => by
    simpa [everyNthAux] using
      List.Sublist.cons a (everyNthAux_sublist stride rest k)

/-- Unfolding of `shard_seq` on a cons cell: the head element lands at the
front of shard 0 and the remaining shards rotate. -/
theorem shard_seq_cons {α : Type _} (a : α) (l : List α) (W : Nat) (hW : 1 ≤ W) :
    shard_seq (a :: l) W =
      (a :: strideSlice W (l.drop (W - 1))) ::
        (List.range (W - 1)).map (fun i => strideSlice W (l.drop i)) := by
  obtain ⟨V, rfl⟩ : ∃ V, W = V + 1 := ⟨W - 1, by omega⟩
  simp only [shard_seq, List.range_succ_eq_map, List.map_cons, List.map_map]
  refine congrArg₂ List.cons ?_ ?_
  · simp only [List.drop_zero, Nat.add_sub_cancel]
    rw [show strideSlice (V + 1) (a :: l) = a :: everyNthAux (V + 1) l (V + 1 - 1) from rfl]
    rw [everyNthAux_eq_drop]
    norm_num
  · simp only [Nat.add_sub_cancel]
    rfl

theorem strideSlice_nil {α : Type _} (stride : Nat) :
    strideSlice stride ([] : List α) = [] := rfl

theorem shard_seq_nil {α : Type _} (W : Nat) :
    shard_seq ([] : List α) W = (List.range W).map (fun _ => []) := by
  simp [shard_seq, List.drop_nil, strideSlice_nil]

theorem shard_seq_length {α : Type _} (seq : List α) (W : Nat) :
    (shard_seq seq W).length = W := by
  simp [shard_seq]

theorem shard_seq_getElem? {α : Type _} (seq : List α) (W i : Nat) (hi : i < W) :
    (shard_seq seq W)[i]? = some (strideSlice W (seq.drop i)) := by
  simp [shard_seq, List.getElem?_map, List.getElem?_range, hi]

theorem shard_seq_flatten_perm {α : Type _} (W : Nat) (hW : 1 ≤ W) :
    ∀ l : List α, (shard_seq l W).flatten.Perm l
  | [] => by
    rw [shard_seq_nil]
    have h : ∀ L : List Nat, ((L.map (fun _ => ([] : List α))).flatten = []) := by
      intro L
      induction L with
      | nil => rfl
      | cons x xs ih => simp
    rw [h]
  | a :: l => by
    rw [shard_seq_cons a l W hW]
    have hrest : shard_seq l W =
        (List.range (W - 1)).map (fun i => strideSlice W (l.drop i)) ++
          [strideSlice W (l.drop (W - 1))] := by
      obtain ⟨V, rfl⟩ : ∃ V, W = V + 1 := ⟨W - 1, by omega⟩
      simp only [Nat.add_sub_cancel, shard_seq]
      rw [List.range_succ, List.map_append, List.map_cons, List.map_nil]
    have ih := shard_seq_flatten_perm W hW l
    rw [hrest] at ih
    simp only [List.flatten_cons, List.flatten_append, List.flatten_cons,
      List.flatten_nil, List.append_nil] at ih ⊢
    exact ((List.perm_append_comm).cons a).trans (ih.cons a)

theorem shard_seq_sum_lengths {α : Type _} (l : List α) (W : Nat) (hW : 1 ≤ W) :
    ((shard_seq l W).map List.length).sum = l.length := by
  rw [← List.length_flatten]
  exact (shard_seq_flatten_perm W hW l).length_eq

theorem shard_seq_mem_length {α : Type _} (seq : List α) (W : Nat) (hW : 1 ≤ W)
    (s : List α) (hs : s ∈ shard_seq seq W) :
    ∃ i, i < W ∧ s.length = (seq.length - i + (W - 1)) / W := by
  simp only [shard_seq, List.mem_map, List.mem_range] at hs
  obtain ⟨i, hi, rfl⟩ := hs
  exact ⟨i, hi, by rw [strideSlice_length W hW, List.length_drop]⟩

/-- Decomposition of a list around a successful index lookup. -/
theorem getElem?_decomp {α : Type _} {l : List α} {i : Nat} {x : α}
    (h : l[i]? = some x) :
    l = l.take i ++ x :: l.drop (i + 1) ∧
      ∀ y, l.set i y = l.take i ++ y :: l.drop (i + 1) := by
  have hlt : i < l.length := by
    by_contra hc
    push_neg at hc
    rw [List.getElem?_eq_none hc] at h
    exact Option.noConfusion h
  have hx : l[i] = x := by
    rw [List.getElem?_eq_getElem hlt] at h
    exact Option.some.inj h
  refine ⟨?_, fun y => List.set_eq_take_cons_drop y hlt⟩
  conv_lhs => rw [← List.take_append_drop i l]
  rw [← List.getElem_cons_drop l i hlt, hx]

/-- Claim C2: for every finite sequence of `N` items and every worker count
`W ≥ 1`, `shard_seq` produces `W` shards whose lengths sum to `N`, each a
subsequence of the input (relative order preserved), whose flattening is a
permutation of the input (every item in exactly one shard), with item `i`
found in shard `i % W` at offset `i / W`, and any two shard lengths
differing by at most 1. -/
theorem shard_seq_correct {α : Type _} (seq : List α) (W : Nat) (hW : 1 ≤ W) :
    (shard_seq seq W).length = W ∧
    ((shard_seq seq W).map List.length).sum = seq.length ∧
    (∀ s ∈ shard_seq seq W, s.Sublist seq) ∧
    (shard_seq seq W).flatten.Perm seq ∧
    (∀ i, i < seq.length →
      (((shard_seq seq W)[i % W]?).getD [])[i / W]? = seq[i]?) ∧
    (∀ s₁ ∈ shard_seq seq W, ∀ s₂ ∈ shard_seq seq W, s₁.length ≤ s₂.length + 1) := by
  refine ⟨shard_seq_length seq W, shard_seq_sum_lengths seq W hW, ?_, ?_, ?_, ?_⟩
  · intro s hs
    simp only [shard_seq, List.mem_map, List.mem_range] at hs
    obtain ⟨i, _, rfl⟩ := hs
    exact (everyNthAux_sublist W (seq.drop i) 0).trans (List.drop_sublist i seq)
  · exact shard_seq_flatten_perm W hW seq
  · intro i _
    have hmod : i % W < W := Nat.mod_lt i (by omega)
    rw [shard_seq_getElem? seq W (i % W) hmod]
    simp only [Option.getD_some]
    rw [strideSlice_getElem? W hW, List.getElem?_drop]
    congr 1
    have h2 := Nat.mod_add_div i W
    rw [Nat.mul_comm] at h2
    omega
  · intro s₁ h₁ s₂ h₂
    obtain ⟨i, hi, hl₁⟩ := shard_seq_mem_length seq W hW s₁ h₁
    obtain ⟨j, hj, hl₂⟩ := shard_seq_mem_length seq W hW s₂ h₂
    rw [hl₁, hl₂, ← Nat.add_div_right _ (show 0 < W by omega)]
    exact Nat.div_le_div_right (by omega)

/-- Witness for C2 at `seq = [0, 1, 2, 3, 4]`, `W = 2` (shards
`[0, 2, 4]` and `[1, 3]`). -/
theorem shard_seq_correct_witness :
    1 ≤ 2 ∧
    ((shard_seq [0, 1, 2, 3, 4] 2).length = 2 ∧
      ((shard_seq [0, 1, 2, 3, 4] 2).map List.length).sum = ([0, 1, 2, 3, 4] : List Nat).length ∧
      (∀ s ∈ shard_seq [0, 1, 2, 3, 4] 2, s.Sublist [0, 1, 2, 3, 4]) ∧
      (shard_seq [0, 1, 2, 3, 4] 2).flatten.Perm [0, 1, 2, 3, 4] ∧
      (∀ i, i < ([0, 1, 2, 3, 4] : List Nat).length →
        (((shard_seq [0, 1, 2, 3, 4] 2)[i % 2]?).getD [])[i / 2]? = [0, 1, 2, 3, 4][i]?) ∧
      (∀ s₁ ∈ shard_seq [0, 1, 2, 3, 4] 2, ∀ s₂ ∈ shard_seq [0, 1, 2, 3, 4] 2,
        s₁.length ≤ s₂.length + 1)) :=
  ⟨by decide, shard_seq_correct [0, 1, 2, 3, 4] 2 (by decide)⟩

/-! ### Interleaving lemmas -/

theorem set_of_getElem?_eq {α : Type _} :
    ∀ {l : List α} {i : Nat} {x : α}, l[i]? = some x → l.set i x = l
  | [], i, x, h => by simp at h
  | a :: l, 0, x, h => by
    simp only [List.getElem?_cons_zero, Option.some.injEq] at h
    rw [h]
    rfl
  | a :: l, i + 1, x, h => by
    simp only [List.getElem?_cons_succ] at h
    simp only [List.set_cons_succ]
    rw [set_of_getElem?_eq h]

theorem interleave_nil_cons {α : Type _} {ls : List (List α)} {out : List α}
    (h : Interleaving ls out) : Interleaving ([] :: ls) out := by
  induction h with
  | nil ls h =>
    refine .nil _ ?_
    intro l hl
    rcases List.mem_cons.mp hl with h' | h'
    · exact h'
    · exact h l h'
  | cons ls i a rest out hi htail ih =>
    exact .cons _ (i + 1) a rest out (by simpa using hi) ih

theorem interleave_cons_list {α : Type _} {ls : List (List α)} {out : List α}
    (h : Interleaving ls out) : ∀ l : List α, Interleaving (l :: ls) (l ++ out)
  | [] => interleave_nil_cons h
  | a :: l => .cons _ 0 a l _ (by simp) (interleave_cons_list h l)

/-- Processing the shards' outputs one after another is one admissible
interleaving. -/
theorem interleave_flatten {α : Type _} :
    ∀ ls : List (List α), Interleaving ls ls.flatten
  | [] => .nil [] (by intro l hl; cases hl)
  | l :: ls => by
    rw [List.flatten_cons]
    exact interleave_cons_list (interleave_flatten ls) l

theorem interleave_map {α β : Type _} (f : α → β) {ls : List (List α)}
    {out : List α} (h : Interleaving ls out) :
    Interleaving (ls.map (List.map f)) (out.map f) := by
  induction h with
  | nil ls h =>
    refine .nil _ ?_
    intro l hl
    rw [List.mem_map] at hl
    obtain ⟨x, hx, rfl⟩ := hl
    rw [h x hx]
    rfl
  | cons ls i a rest out hi htail ih =>
    refine .cons _ i (f a) (rest.map f) _ ?_ ?_
    · rw [List.getElem?_map, hi]
      rfl
    · rw [← List.map_set]
      exact ih

theorem interleave_filter {α : Type _} (p : α → Bool) {ls : List (List α)}
    {out : List α} (h : Interleaving ls out) :
    Interleaving (ls.map (List.filter p)) (out.filter p) := by
  induction h with
  | nil ls h =>
    refine .nil _ ?_
    intro l hl
    rw [List.mem_map] at hl
    obtain ⟨x, hx, rfl⟩ := hl
    rw [h x hx]
    rfl
  | cons ls i a rest out hi htail ih =>
    by_cases hp : p a
    · rw [List.filter_cons_of_pos hp]
      refine .cons _ i a (rest.filter p) _ ?_ ?_
      · rw [List.getElem?_map, hi]
        simp [List.filter_cons_of_pos hp]
      · rw [← List.map_set]
        exact ih
    · rw [List.filter_cons_of_neg (by simpa using hp)]
      have hmap : (ls.set i rest).map (List.filter p) = ls.map (List.filter p) := by
        rw [List.map_set]
        apply set_of_getElem?_eq
        rw [List.getElem?_map, hi]
        simp [List.filter_cons_of_neg (by simpa using hp : ¬ p a = true)]
      rwa [hmap] at ih

/-! ### Collector lemmas -/

theorem roundRobinItems_zero {π ε : Type _} (evs : List (QueueItem π ε)) :
    roundRobinItems evs 0 = some (.ok [], evs) := by
  cases evs <;> simp [roundRobinItems]

theorem round_robin_zero {π ε : Type _} (evs : List (Nat × Option (QueueItem π ε)))
    (last : Nat) : round_robin evs 0 last = some (.ok [], evs, []) := by
  cases evs <;> simp [round_robin]

theorem option_map_fst_congr {A B C D : Type _} {x : Option (A × B)} {y : Option (A × C)}
    (h : x.map Prod.fst = y.map Prod.fst) (f : A → D) :
    x.map (fun r => f r.1) = y.map (fun r => f r.1) := by
  cases x <;> cases y <;> simp_all

theorem roundRobinItems_starved {π ε : Type _} (n : Nat) :
    roundRobinItems ([] : List (QueueItem π ε)) (n + 1) = none := rfl

theorem roundRobinItems_sentinel {π ε : Type _} (evs : List (QueueItem π ε)) (n : Nat) :
    roundRobinItems (.sentinel :: evs) (n + 1) = roundRobinItems evs n := rfl

theorem roundRobinItems_error {π ε : Type _} (m : ResultMessage π ε)
    (evs : List (QueueItem π ε)) (n : Nat) (e : ε) (h : m.exception = some e) :
    roundRobinItems (.message m :: evs) (n + 1) = some (.error e, evs) := by
  simp [roundRobinItems, h]

theorem roundRobinItems_yield {π ε : Type _} (m : ResultMessage π ε)
    (evs : List (QueueItem π ε)) (n : Nat) (h : m.exception = none) :
    roundRobinItems (.message m :: evs) (n + 1) =
      (roundRobinItems evs (n + 1)).map (fun r => (r.1.map (fun l => m.data :: l), r.2)) := by
  simp [roundRobinItems, h]

/-- The collection outcome of `round_robin` is a function of the queue items
it receives alone: timestamps and `queue.Empty` polls influence at most the
warnings, never whether or with what result collection terminates. -/
theorem round_robin_outcome {π ε : Type _} :
    ∀ (evs : List (Nat × Option (QueueItem π ε))) (n last : Nat),
      (round_robin evs n last).map (fun r => r.1) =
        (roundRobinItems (evs.filterMap (fun e => e.2)) n).map (fun r => r.1)
  | [], n, last => by
    cases n with
    | zero => rw [round_robin_zero, List.filterMap_nil, roundRobinItems_zero]; rfl
    | succ n => rfl
  | (t, none) :: rest, n, last => by
    cases n with
    | zero => rw [round_robin_zero, List.filterMap_cons, roundRobinItems_zero]; rfl
    | succ n =>
      have ih := round_robin_outcome rest (n + 1) last
      simp only [round_robin, List.filterMap_cons, Option.map_map]
      exact option_map_fst_congr ih (fun x => x)
  | (t, some it) :: rest, n, last => by
    cases n with
    | zero => rw [round_robin_zero, List.filterMap_cons, roundRobinItems_zero]; rfl
    | succ n =>
      cases it with
      | sentinel =>
        simp only [round_robin, List.filterMap_cons, roundRobinItems_sentinel]
        exact round_robin_outcome rest n t
      | message m =>
        cases hm : m.exception with
        | some e =>
          simp only [round_robin, List.filterMap_cons, hm,
            roundRobinItems_error m _ n e hm]
          rfl
        | none =>
          have ih := round_robin_outcome rest (n + 1) t
          simp only [round_robin, List.filterMap_cons, hm,
            roundRobinItems_yield m _ n hm, Option.map_map]
          exact option_map_fst_congr ih (fun x => x.map (fun l => m.data :: l))

/-- The collector consumes its queue strictly front-first: whatever it does
not consume is a suffix of the incoming items. -/
theorem roundRobinItems_leftover_suffix {π ε : Type _} :
    ∀ (evs : List (QueueItem π ε)) (n : Nat) (r : Except ε (List (Option π)))
      (left : List (QueueItem π ε)),
      roundRobinItems evs n = some (r, left) → left <:+ evs
  | evs, 0, r, left => by
    rw [roundRobinItems_zero]
    intro h
    simp only [Option.some.injEq, Prod.mk.injEq] at h
    obtain ⟨-, h2⟩ := h
    subst h2
    exact List.suffix_refl evs
  | [], n + 1, r, left => by
    rw [roundRobinItems_starved]
    intro h
    exact absurd h (by simp)
  | .sentinel :: rest, n + 1, r, left => by
    rw [roundRobinItems_sentinel]
    intro h
    exact (roundRobinItems_leftover_suffix rest n r left h).trans
      (List.suffix_cons _ rest)
  | .message m :: rest, n + 1, r, left => by
    cases hm : m.exception with
    | some e =>
      rw [roundRobinItems_error m rest n e hm]
      intro h
      simp only [Option.some.injEq, Prod.mk.injEq] at h
      rw [← h.2]
      exact List.suffix_cons _ rest
    | none =>
      rw [roundRobinItems_yield m rest n hm]
      intro h
      obtain ⟨⟨r0, left0⟩, hr, heq⟩ := Option.map_eq_some'.mp h
      simp only [Prod.mk.injEq] at heq
      rw [← heq.2]
      exact (roundRobinItems_leftover_suffix rest (n + 1) r0 left0 hr).trans
        (List.suffix_cons _ rest)

/-- Items queued behind the ones the collector consumes do not change its
outcome and survive as leftover: a completed collection on `evs₁` behaves
identically when `evs₂` sits behind it.  In particular the items of `evs₁`
are consumed before any item of `evs₂`. -/
theorem roundRobinItems_append {π ε : Type _} :
    ∀ (evs₁ : List (QueueItem π ε)) (n : Nat) (r : Except ε (List (Option π)))
      (left evs₂ : List (QueueItem π ε)),
      roundRobinItems evs₁ n = some (r, left) →
      roundRobinItems (evs₁ ++ evs₂) n = some (r, left ++ evs₂)
  | evs₁, 0, r, left, evs₂ => by
    rw [roundRobinItems_zero, roundRobinItems_zero]
    intro h
    simp only [Option.some.injEq, Prod.mk.injEq] at h ⊢
    exact ⟨h.1, by rw [h.2]⟩
  | [], n + 1, r, left, evs₂ => by
    rw [roundRobinItems_starved]
    intro h
    exact absurd h (by simp)
  | .sentinel :: rest, n + 1, r, left, evs₂ => by
    rw [roundRobinItems_sentinel, List.cons_append, roundRobinItems_sentinel]
    exact roundRobinItems_append rest n r left evs₂
  | .message m :: rest, n + 1, r, left, evs₂ => by
    cases hm : m.exception with
    | some e =>
      rw [roundRobinItems_error m rest n e hm, List.cons_append,
        roundRobinItems_error m (rest ++ evs₂) n e hm]
      intro h
      simp only [Option.some.injEq, Prod.mk.injEq] at h ⊢
      exact ⟨h.1, by rw [h.2]⟩
    | none =>
      rw [roundRobinItems_yield m rest n hm, List.cons_append,
        roundRobinItems_yield m (rest ++ evs₂) n hm]
      intro h
      obtain ⟨⟨r0, left0⟩, hr, heq⟩ := Option.map_eq_some'.mp h
      simp only [Prod.mk.injEq] at heq
      rw [roundRobinItems_append rest (n + 1) r0 left0 evs₂ hr]
      simp only [Option.map_some', Option.some.injEq, Prod.mk.injEq]
      exact ⟨heq.1, by rw [← heq.2]⟩

theorem flatten_map_eq_nil {α β : Type _} (f : α → List β) :
    ∀ (ls : List α), (∀ l ∈ ls, f l = []) → (ls.map f).flatten = []
  | [], _ => rfl
  | l :: ls, h => by
    rw [List.map_cons, List.flatten_cons, h l (List.mem_cons_self l ls),
      flatten_map_eq_nil f ls (fun x hx => h x (List.mem_cons_of_mem l hx))]
    rfl

/-- Main collection lemma: if the caller's queue receives any interleaving
of completed, error-free task outputs, collection with the count of
non-empty outputs as the outstanding-shard counter terminates with exactly
the payloads of all tasks (as a permutation) and consumes everything. -/
theorem roundRobin_interleaving {π ε : Type _} {ls : List (List (QueueItem π ε))}
    {evs : List (QueueItem π ε)} (hevs : Interleaving ls evs) :
    (∀ l ∈ ls, l = [] ∨ okTaskOutput l) →
    ∃ collected, roundRobinItems evs (ls.countP (fun l => !l.isEmpty)) =
        some (.ok collected, []) ∧ collected.Perm (ls.map queueData).flatten := by
  induction hevs with
  | nil ls h =>
    intro _
    refine ⟨[], ?_, ?_⟩
    · have hc : ls.countP (fun l => !l.isEmpty) = 0 := by
        refine List.countP_eq_zero.mpr ?_
        intro l hl
        rw [h l hl]
        simp
      rw [hc, roundRobinItems_zero]
    · rw [flatten_map_eq_nil queueData ls (fun l hl => by rw [h l hl]; rfl)]
  | cons ls i a rest out hi htail ih =>
    intro hls
    obtain ⟨T, D, hT, hset⟩ :
        ∃ T D, ls = T ++ (a :: rest) :: D ∧ ∀ y, ls.set i y = T ++ y :: D :=
      ⟨ls.take i, ls.drop (i + 1), (getElem?_decomp hi).1, (getElem?_decomp hi).2⟩
    have hmem : (a :: rest) ∈ ls := List.getElem?_mem hi
    rcases hls _ hmem with h' | h'
    · exact absurd h' (by simp)
    obtain ⟨ms, hms, hmsnone⟩ := h'
    have hls' : ∀ y, (∀ m ∈ ls.set i y, m = [] ∨ okTaskOutput m) ∨ ¬ (y = [] ∨ okTaskOutput y) := by
      intro y
      by_cases hy : y = [] ∨ okTaskOutput y
      · left
        intro l hl
        rcases List.mem_or_eq_of_mem_set hl with h'' | h''
        · exact hls l h''
        · rw [h'']
          exact hy
      · right
        exact hy
    cases ms with
    | nil =>
      obtain ⟨rfl, rfl⟩ : a = QueueItem.sentinel ∧ rest = [] := by
        rw [List.map_nil, List.nil_append] at hms
        exact ⟨(List.cons.injEq _ _ _ _ ▸ hms).1, (List.cons.injEq _ _ _ _ ▸ hms).2⟩
      rcases hls' [] with hok | hbad
      · obtain ⟨c, hc, hperm⟩ := ih hok
        have hcount : ls.countP (fun l => !l.isEmpty) =
            (ls.set i []).countP (fun l => !l.isEmpty) + 1 := by
          rw [hset, hT, List.countP_append, List.countP_append,
            List.countP_cons, List.countP_cons]
          simp
          omega
        refine ⟨c, ?_, ?_⟩
        · rw [hcount, roundRobinItems_sentinel]
          exact hc
        · refine hperm.trans ?_
          have heq : (List.map queueData (ls.set i [])).flatten =
              (List.map queueData ls).flatten := by
            rw [hset, hT]
            simp [queueData]
          rw [heq]
      · exact absurd (Or.inl rfl) hbad
    | cons m ms' =>
      obtain ⟨rfl, rfl⟩ : a = QueueItem.message m ∧ rest = ms'.map .message ++ [.sentinel] := by
        rw [List.map_cons, List.cons_append] at hms
        exact ⟨(List.cons.injEq _ _ _ _ ▸ hms).1, (List.cons.injEq _ _ _ _ ▸ hms).2⟩
      have hmex : m.exception = none := hmsnone m (List.mem_cons_self m ms')
      have hrest_ok : okTaskOutput (ms'.map QueueItem.message ++ [QueueItem.sentinel]) :=
        ⟨ms', rfl, fun x hx => hmsnone x (List.mem_cons_of_mem m hx)⟩
      rcases hls' (ms'.map QueueItem.message ++ [QueueItem.sentinel]) with hok | hbad
      · obtain ⟨c, hc, hperm⟩ := ih hok
        have hcount : (ls.set i (ms'.map QueueItem.message ++ [QueueItem.sentinel])).countP
            (fun l => !l.isEmpty) = ls.countP (fun l => !l.isEmpty) := by
          rw [hset, hT, List.countP_append, List.countP_append,
            List.countP_cons, List.countP_cons]
          simp
        have hpos : ∃ k, ls.countP (fun l => !l.isEmpty) = k + 1 := by
          refine ⟨T.countP (fun l => !l.isEmpty) + D.countP (fun l => !l.isEmpty), ?_⟩
          rw [hT, List.countP_append, List.countP_cons]
          simp
          omega
        obtain ⟨k, hk⟩ := hpos
        refine ⟨m.data :: c, ?_, ?_⟩
        · rw [hcount, hk] at hc
          rw [hk, roundRobinItems_yield m out k hmex, hc]
          rfl
        · have hflat : (ls.map queueData).flatten =
              (T.map queueData).flatten ++ m.data ::
                (queueData (ms'.map QueueItem.message ++ [QueueItem.sentinel]) ++
                  (D.map queueData).flatten) := by
            rw [hT]
            simp [queueData]
          have hflat' : ((ls.set i (ms'.map QueueItem.message ++ [QueueItem.sentinel])).map
              queueData).flatten =
              (T.map queueData).flatten ++
                (queueData (ms'.map QueueItem.message ++ [QueueItem.sentinel]) ++
                  (D.map queueData).flatten) := by
            rw [hset]
            simp
          rw [hflat]
          rw [hflat'] at hperm
          exact (hperm.cons m.data).trans List.perm_middle.symm
      · exact absurd (Or.inr hrest_ok) hbad

/-! ### Worker lemmas -/

theorem processRecords_ok_step {ρ π ε : Type _} (g : ρ → π) (id : Nat) :
    ∀ rs : List ρ, processRecords (fun r => (.ok (g r) : Except ε π)) id rs =
      rs.map (fun r => .message ⟨id, some (g r), none⟩)
  | [] => rfl
  | r :: rs => by
    simp only [processRecords, List.map_cons]
    rw [processRecords_ok_step g id rs]

theorem processTask_ok_step {ρ π ε : Type _} (g : ρ → π) (t : TaskMessage ρ) :
    processTask (fun r => (.ok (g r) : Except ε π)) t =
      (t.data.map (fun r => (⟨t.id, some (g r), none⟩ : ResultMessage π ε))).map
        QueueItem.message ++ [.sentinel] := by
  rw [processTask, processRecords_ok_step, List.map_map]
  rfl

theorem processTask_okTaskOutput {ρ π ε : Type _} (g : ρ → π) (t : TaskMessage ρ) :
    okTaskOutput (processTask (fun r => (.ok (g r) : Except ε π)) t) := by
  refine ⟨t.data.map (fun r => ⟨t.id, some (g r), none⟩), processTask_ok_step g t, ?_⟩
  intro m hm
  rw [List.mem_map] at hm
  obtain ⟨r, -, rfl⟩ := hm
  rfl

theorem queueData_task_output {π ε : Type _} :
    ∀ ms : List (ResultMessage π ε),
      queueData (ms.map QueueItem.message ++ [QueueItem.sentinel]) =
        ms.map (fun m => m.data)
  | [] => rfl
  | m :: ms => by
    have ih := queueData_task_output (π := π) (ε := ε) ms
    simp only [queueData, List.map_cons, List.cons_append, List.filterMap_cons] at ih ⊢
    rw [ih]

theorem queueData_processTask_ok {ρ π ε : Type _} (g : ρ → π) (t : TaskMessage ρ) :
    queueData (processTask (fun r => (.ok (g r) : Except ε π)) t) =
      t.data.map (fun r => some (g r)) := by
  rw [processTask_ok_step, queueData_task_output, List.map_map]
  rfl

theorem processTask_ne_nil {ρ π ε : Type _} (step : ρ → Except ε π)
    (t : TaskMessage ρ) : (processTask step t).isEmpty = false := by
  rw [processTask]
  cases h : processRecords step t.id t.data <;> simp [List.isEmpty]

theorem processRecords_error_abort {ρ π ε : Type _} (step : ρ → Except ε π) (id : Nat) :
    ∀ (pre : List ρ) (r : ρ) (post : List ρ) (e : ε),
      (∀ x ∈ pre, (step x).isOk = true) → step r = .error e →
      processRecords step id (pre ++ r :: post) =
        pre.map (fun x => .message ⟨id, (step x).toOption, none⟩) ++
          [.message ⟨id, none, some e⟩]
  | [], r, post, e, hpre, hr => by
    simp [processRecords, hr]
  | x :: pre, r, post, e, hpre, hr => by
    have hx := hpre x (List.mem_cons_self x pre)
    cases hstep : step x with
    | ok p =>
      rw [List.cons_append]
      simp only [processRecords, hstep]
      rw [processRecords_error_abort step id pre r post e
        (fun y hy => hpre y (List.mem_cons_of_mem x hy)) hr]
      simp [Except.toOption, hstep]
    | error e' =>
      rw [hstep] at hx
      exact Bool.noConfusion hx

theorem workerLoop_task_cons {ρ π ε : Type _} (fsdp : Bool) (step : ρ → Except ε π)
    (t : TaskMessage ρ) (rest : List (TaskQueueItem ρ)) :
    workerLoop fsdp step (.task t :: rest) =
      (workerTaskPushes step t ++ (workerLoop fsdp step rest).1,
        (workerLoop fsdp step rest).2) := by
  simp [workerLoop, pyTruthy]

theorem workerLoop_sentinel_head {ρ π ε : Type _} (fsdp : Bool) (step : ρ → Except ε π)
    (rest : List (TaskQueueItem ρ)) :
    workerLoop fsdp step (.sentinel :: rest) = ([], .shutdownReturn false) := by
  simp [workerLoop, pyTruthy]

theorem workerTaskPushes_key {ρ π ε : Type _} (step : ρ → Except ε π)
    (t : TaskMessage ρ) : ∀ p ∈ workerTaskPushes step t, p.1 = t.id := by
  intro p hp
  rw [workerTaskPushes, List.mem_map] at hp
  obtain ⟨it, -, rfl⟩ := hp
  rfl

theorem processRecords_message_id {ρ π ε : Type _} (step : ρ → Except ε π) (id : Nat) :
    ∀ (rs : List ρ), ∀ it ∈ processRecords step id rs,
      ∀ m, it = QueueItem.message m → m.id = id
  | [], it, hit => absurd hit (by simp [processRecords])
  | r :: rs, it, hit => by
    intro m hm
    subst hm
    cases hstep : step r with
    | ok p =>
      simp only [processRecords, hstep, List.mem_cons] at hit
      rcases hit with h | h
      · have h' := QueueItem.message.inj h
        rw [h']
      · exact processRecords_message_id step id rs _ h m rfl
    | error e' =>
      simp only [processRecords, hstep, List.mem_singleton] at hit
      have h' := QueueItem.message.inj hit
      rw [h']

theorem workerTaskPushes_message_id {ρ π ε : Type _} (step : ρ → Except ε π)
    (t : TaskMessage ρ) :
    ∀ p ∈ workerTaskPushes step t, ∀ m, p.2 = QueueItem.message m → m.id = t.id := by
  intro p hp m hm
  rw [workerTaskPushes, List.mem_map] at hp
  obtain ⟨it, hit, rfl⟩ := hp
  rw [processTask, List.mem_append] at hit
  rcases hit with h | h
  · exact processRecords_message_id step t.id t.data it h m hm
  · rw [List.mem_singleton] at h
    rw [h] at hm
    exact absurd hm (by simp)

theorem deliver_map_pair {π ε : Type _} (id qid : Nat) :
    ∀ l : List (QueueItem π ε),
      deliver (l.map (fun it => (id, it))) qid = if id = qid then l else []
  | [] => by
    rw [deliver]
    by_cases h : id = qid <;> simp [h]
  | it :: l => by
    have ih := deliver_map_pair id qid l
    rw [deliver] at ih ⊢
    by_cases h : id = qid
    · simp only [List.map_cons, List.filter_cons]
      simp [h] at ih ⊢
      exact ih
    · simp only [List.map_cons, List.filter_cons]
      simp [h] at ih ⊢

theorem deliver_interleaving {ρ π ε : Type _} (step : ρ → Except ε π)
    (ts : List (TaskMessage ρ)) (qid : Nat) {pushes : List (Nat × QueueItem π ε)}
    (h : Interleaving (ts.map (workerTaskPushes step)) pushes) :
    Interleaving (ts.map (fun t => if t.id = qid then processTask step t else []))
      (deliver pushes qid) := by
  have h2 := interleave_map (fun p : Nat × QueueItem π ε => p.2)
    (interleave_filter (fun p => p.1 == qid) h)
  rw [List.map_map, List.map_map] at h2
  have hfun : List.map (((List.map (fun p : Nat × QueueItem π ε => p.2)) ∘
      (List.filter (fun p => p.1 == qid))) ∘ workerTaskPushes step) ts =
      List.map (fun t => if t.id = qid then processTask step t else []) ts := by
    refine List.map_congr_left ?_
    intro t _
    show deliver ((processTask step t).map (fun it => (t.id, it))) qid = _
    rw [deliver_map_pair]
  rw [hfun] at h2
  exact h2

/-! ### Claim theorems -/

/-- Counterexample to claim C1: the worker's `try`/`except` encloses the
whole record loop, so one failing record aborts the batch.  With records
`[0, 1, 2, 3, 4]` and exactly one failing record (record `2`), the pushed
items contain 2 successful results — not 4 — plus one error-carrying result
before the completion marker. -/
theorem worker_per_record_error_counterexample :
    ((List.range 5).countP
      (fun r => !(if r = 2 then (.error () : Except Unit Nat) else .ok r).isOk)) = 1 ∧
    (processTask (fun r => if r = 2 then (.error () : Except Unit Nat) else .ok r)
      ⟨7, [0, 1, 2, 3, 4]⟩).countP isSuccessItem = 2 ∧
    (processTask (fun r => if r = 2 then (.error () : Except Unit Nat) else .ok r)
      ⟨7, [0, 1, 2, 3, 4]⟩).countP isErrorItem = 1 ∧
    ¬ ((processTask (fun r => if r = 2 then (.error () : Except Unit Nat) else .ok r)
      ⟨7, [0, 1, 2, 3, 4]⟩).countP isSuccessItem = 4) := by
  decide

/-- Claim C1 (amended): when processing record `r` of a batch raises, the
worker pushes one successful Result per record before `r`, then a single
error-carrying Result, skips the remaining records of the batch, still
pushes the Completion Marker, and goes on serving subsequent tasks. -/
theorem worker_error_aborts_batch {ρ π ε : Type _} (step : ρ → Except ε π)
    (id : Nat) (pre : List ρ) (r : ρ) (post : List ρ) (e : ε)
    (hpre : ∀ x ∈ pre, (step x).isOk = true) (hr : step r = .error e) :
    processTask step ⟨id, pre ++ r :: post⟩ =
      pre.map (fun x => .message ⟨id, (step x).toOption, none⟩) ++
        [.message ⟨id, none, some e⟩, .sentinel] ∧
    (processTask step ⟨id, pre ++ r :: post⟩).countP isSuccessItem = pre.length ∧
    (processTask step ⟨id, pre ++ r :: post⟩).countP isErrorItem = 1 ∧
    (∀ (fsdp : Bool) (rest : List (TaskQueueItem ρ)) (t' : TaskMessage ρ),
      workerLoop fsdp step (.task ⟨id, pre ++ r :: post⟩ :: .task t' :: rest) =
        (workerTaskPushes step ⟨id, pre ++ r :: post⟩ ++
          (workerTaskPushes step t' ++ (workerLoop fsdp step rest).1),
          (workerLoop fsdp step rest).2)) := by
  have heq : processTask step ⟨id, pre ++ r :: post⟩ =
      pre.map (fun x => .message ⟨id, (step x).toOption, none⟩) ++
        [.message ⟨id, none, some e⟩, .sentinel] := by
    rw [processTask]
    show processRecords step id (pre ++ r :: post) ++ [.sentinel] = _
    rw [processRecords_error_abort step id pre r post e hpre hr, List.append_assoc]
    rfl
  refine ⟨heq, ?_, ?_, ?_⟩
  · rw [heq, List.countP_append]
    have h1 : (pre.map (fun x =>
        (QueueItem.message ⟨id, (step x).toOption, none⟩ : QueueItem π ε))).countP
        isSuccessItem = pre.length := by
      rw [← List.length_map pre (fun x =>
        (QueueItem.message ⟨id, (step x).toOption, none⟩ : QueueItem π ε))]
      refine List.countP_eq_length.mpr ?_
      intro a ha
      rw [List.mem_map] at ha
      obtain ⟨x, -, rfl⟩ := ha
      rfl
    rw [h1]
    rfl
  · rw [heq, List.countP_append]
    have h1 : (pre.map (fun x =>
        (QueueItem.message ⟨id, (step x).toOption, none⟩ : QueueItem π ε))).countP
        isErrorItem = 0 := by
      refine List.countP_eq_zero.mpr ?_
      intro a ha
      rw [List.mem_map] at ha
      obtain ⟨x, -, rfl⟩ := ha
      simp [isErrorItem]
    rw [h1]
    rfl
  · intro fsdp rest t'
    rw [workerLoop_task_cons, workerLoop_task_cons]

/-- Witness for the amended C1: records `[0, 1] ++ 2 :: [3, 4]`, record `2`
failing — two successful results are pushed. -/
theorem worker_error_aborts_batch_witness :
    (∀ x ∈ [0, 1],
      ((fun r => if r = 2 then (.error () : Except Unit Nat) else .ok r) x).isOk = true) ∧
    (fun r => if r = 2 then (.error () : Except Unit Nat) else .ok r) 2 = .error () ∧
    (processTask (fun r => if r = 2 then (.error () : Except Unit Nat) else .ok r)
      ⟨7, [0, 1] ++ 2 :: [3, 4]⟩).countP isSuccessItem = [0, 1].length :=
  ⟨by decide, rfl,
    (worker_error_aborts_batch (fun r => if r = 2 then (.error () : Except Unit Nat) else .ok r)
      7 [0, 1] 2 [3, 4] () (by decide) rfl).2.1⟩

/-- Claim C3: every Result and Completion Marker a worker produces for a
task is pushed to the result channel keyed by that task's caller id, result
messages carry that id in their `id` field, and for any interleaving of
several tasks' pushes the items delivered to a caller's channel are exactly
an interleaving of that caller's own task outputs (other callers' tasks
contribute nothing). -/
theorem worker_results_routed_by_caller {ρ π ε : Type _} (step : ρ → Except ε π) :
    (∀ t : TaskMessage ρ, ∀ p ∈ workerTaskPushes step t, p.1 = t.id) ∧
    (∀ t : TaskMessage ρ, ∀ p ∈ workerTaskPushes step t,
      ∀ m, p.2 = QueueItem.message m → m.id = t.id) ∧
    (∀ (ts : List (TaskMessage ρ)) (qid : Nat) (pushes : List (Nat × QueueItem π ε)),
      Interleaving (ts.map (workerTaskPushes step)) pushes →
      Interleaving (ts.map (fun t => if t.id = qid then processTask step t else []))
        (deliver pushes qid)) :=
  ⟨workerTaskPushes_key step, workerTaskPushes_message_id step,
    fun ts qid _ h => deliver_interleaving step ts qid h⟩

/-- Witness for C3: two callers (ids 1 and 2) and a sequential interleaving;
caller 1's channel receives exactly caller 1's task output. -/
theorem worker_results_routed_by_caller_witness :
    Interleaving
      (([⟨1, [10]⟩, ⟨2, [20]⟩] : List (TaskMessage Nat)).map
        (workerTaskPushes (fun r => (.ok r : Except Unit Nat))))
      ((([⟨1, [10]⟩, ⟨2, [20]⟩] : List (TaskMessage Nat)).map
        (workerTaskPushes (fun r => (.ok r : Except Unit Nat)))).flatten) ∧
    Interleaving
      (([⟨1, [10]⟩, ⟨2, [20]⟩] : List (TaskMessage Nat)).map
        (fun t => if t.id = 1 then processTask (fun r => (.ok r : Except Unit Nat)) t else []))
      (deliver
        ((([⟨1, [10]⟩, ⟨2, [20]⟩] : List (TaskMessage Nat)).map
          (workerTaskPushes (fun r => (.ok r : Except Unit Nat)))).flatten) 1) :=
  ⟨interleave_flatten _,
    (worker_results_routed_by_caller (fun r => (.ok r : Except Unit Nat))).2.2
      [⟨1, [10]⟩, ⟨2, [20]⟩] 1 _ (interleave_flatten _)⟩

/-- Claim C4: the collector decrements its outstanding-shard counter on each
completion marker, re-raises an error-carrying result immediately (aborting
collection, the rest of the queue unconsumed), yields every other result's
payload, and terminates exactly when the counter reaches zero — never
because of elapsed time: its outcome is a function of the received queue
items alone, an empty queue keeps it waiting, and a `queue.Empty` poll only
continues the loop after possibly recording the 20-minute-silence
warning. -/
theorem round_robin_protocol {π ε : Type _} :
    (∀ (evs : List (Nat × Option (QueueItem π ε))) (n last : Nat),
      (round_robin evs n last).map (fun r => r.1) =
        (roundRobinItems (evs.filterMap (fun e => e.2)) n).map (fun r => r.1)) ∧
    (∀ (evs : List (QueueItem π ε)) (n : Nat),
      roundRobinItems (.sentinel :: evs) (n + 1) = roundRobinItems evs n) ∧
    (∀ (m : ResultMessage π ε) (evs : List (QueueItem π ε)) (n : Nat) (e : ε),
      m.exception = some e →
      roundRobinItems (.message m :: evs) (n + 1) = some (.error e, evs)) ∧
    (∀ (m : ResultMessage π ε) (evs : List (QueueItem π ε)) (n : Nat),
      m.exception = none →
      roundRobinItems (.message m :: evs) (n + 1) =
        (roundRobinItems evs (n + 1)).map
          (fun r => (r.1.map (fun l => m.data :: l), r.2))) ∧
    (∀ evs : List (QueueItem π ε), roundRobinItems evs 0 = some (.ok [], evs)) ∧
    (∀ n : Nat, roundRobinItems ([] : List (QueueItem π ε)) (n + 1) = none) ∧
    (∀ (t : Nat) (evs : List (Nat × Option (QueueItem π ε))) (n last : Nat),
      round_robin ((t, none) :: evs) (n + 1) last =
        (round_robin evs (n + 1) last).map
          (fun r => (r.1, r.2.1, if last + 1200 < t then t :: r.2.2 else r.2.2))) :=
  ⟨round_robin_outcome,
    fun evs n => roundRobinItems_sentinel evs n,
    fun m evs n e h => roundRobinItems_error m evs n e h,
    fun m evs n h => roundRobinItems_yield m evs n h,
    roundRobinItems_zero,
    roundRobinItems_starved,
    fun t evs n last => by simp [round_robin]⟩

/-- Witness for C4: a concrete error message is re-raised immediately with
the completion marker behind it left unconsumed. -/
theorem round_robin_protocol_witness :
    (⟨0, none, some 5⟩ : ResultMessage Nat Nat).exception = some 5 ∧
    roundRobinItems
      (QueueItem.message ⟨0, none, some 5⟩ :: [(.sentinel : QueueItem Nat Nat)]) (0 + 1) =
      some (.error 5, [.sentinel]) :=
  ⟨rfl, (round_robin_protocol (π := Nat) (ε := Nat)).2.2.1 ⟨0, none, some 5⟩ [.sentinel] 0 5 rfl⟩

/-- Claim C5: `shutdown()` never propagates an exception: whatever the
environment does — on a first call or any repeated call — it returns a
plain boolean, `False` whenever anything in its body raised, and the body's
boolean otherwise. -/
theorem shutdown_never_raises (numWorkers : Nat) (put : Nat → Except PyExc Unit)
    (mgr : Except PyExc Unit) (joinWorkers : Except PyExc Bool) :
    (∀ e, (shutdownTrace numWorkers put mgr joinWorkers).body = .error e →
      shutdown numWorkers put mgr joinWorkers = false) ∧
    (∀ b, (shutdownTrace numWorkers put mgr joinWorkers).body = .ok b →
      shutdown numWorkers put mgr joinWorkers = b) ∧
    (shutdown numWorkers put mgr joinWorkers = true ∨
      shutdown numWorkers put mgr joinWorkers = false) := by
  refine ⟨?_, ?_, Bool.eq_false_or_eq_true _⟩
  · intro e he
    rw [shutdown, he]
  · intro b hb
    rw [shutdown, hb]

/-- Witness for C5: a second `shutdown()` call whose every `put_nowait`
raises (the manager is already down) still returns `False` rather than
raising. -/
theorem shutdown_never_raises_witness :
    (shutdownTrace 2 (fun _ => .error .other) (.error .other) (.ok true)).body =
      .error .other ∧
    shutdown 2 (fun _ => .error .other) (.error .other) (.ok true) = false :=
  ⟨rfl, (shutdown_never_raises 2 (fun _ => .error .other) (.error .other) (.ok true)).1
    .other rfl⟩

/-- Claim C6 at its failing input: with 2 live workers and the task channel
full on the first signal enqueue, `put_nowait` raises `queue.Full`; the
inner handler catches only `queue.Empty`, so the exception escapes to the
outer handler: no signal is enqueued, the second enqueue is never attempted,
`manager.shutdown()` and the process join are never reached, and the call
returns `False` — the claim expects the failure to be skipped, the
remaining signal attempted and the join performed. -/
theorem shutdown_full_channel_aborts :
    (shutdownTrace 2 (fun i => if i = 0 then .error .full else .ok ())
      (.ok ()) (.ok true)).enqueued = 0 ∧
    (shutdownTrace 2 (fun i => if i = 0 then .error .full else .ok ())
      (.ok ()) (.ok true)).managerShutdownCalled = false ∧
    (shutdownTrace 2 (fun i => if i = 0 then .error .full else .ok ())
      (.ok ()) (.ok true)).joinCalled = false ∧
    shutdown 2 (fun i => if i = 0 then .error .full else .ok ()) (.ok ()) (.ok true) =
      false :=
  ⟨rfl, rfl, rfl, rfl⟩

/-- Claim C7 at its failing input: a worker — in FSDP mode or not — that
receives the shutdown sentinel returns from inside its loop at once: it
pushes nothing, never pulls another task, and never reaches the
`dist.destroy_process_group()` cleanup after the loop, so the collective
process group is not torn down (`shutdownReturn false` even with
`fsdpEnabled = true`). -/
theorem worker_fsdp_shutdown_no_teardown {ρ π ε : Type _} (step : ρ → Except ε π)
    (rest : List (TaskQueueItem ρ)) :
    workerLoop true step (.sentinel :: rest) =
      (([] : List (Nat × QueueItem π ε)), .shutdownReturn false) :=
  workerLoop_sentinel_head true step rest

/-- Claim C8: when no record's processing raises (the per-record step always
returns a payload, here `func` applied to the model's output), collection
over any interleaving of the dispatched shards' outputs returns exactly
`len(records)` results, equal as a multiset (permutation) to the transform
applied to the model's output of each record — with no ordering
guarantee. -/
theorem map_returns_all_results {ρ ο π ε : Type _} (records : List ρ) (W qid : Nat)
    (hW : 1 ≤ W) (model : ρ → ο) (func : ο → π) (evs : List (QueueItem π ε))
    (hevs : Interleaving
      ((imapTasks records W qid).map
        (processTask (fun r => (.ok (func (model r)) : Except ε π)))) evs) :
    ∃ collected, roundRobinItems evs (imapNumToWait records W) =
        some (.ok collected, []) ∧
      collected.length = records.length ∧
      collected.Perm (records.map (fun r => some (func (model r)))) := by
  have hok : ∀ l ∈ (imapTasks records W qid).map
      (processTask (fun r => (.ok (func (model r)) : Except ε π))),
      l = [] ∨ okTaskOutput l := by
    intro l hl
    rw [List.mem_map] at hl
    obtain ⟨t, -, rfl⟩ := hl
    exact Or.inr (processTask_okTaskOutput (fun r => func (model r)) t)
  obtain ⟨c, hc, hperm⟩ := roundRobin_interleaving hevs hok
  have hlen : ((imapTasks records W qid).map
      (processTask (fun r => (.ok (func (model r)) : Except ε π)))).length =
      imapNumToWait records W := by
    rw [imapNumToWait, List.length_map, imapTasks, List.length_map]
  have hcount : ((imapTasks records W qid).map
      (processTask (fun r => (.ok (func (model r)) : Except ε π)))).countP
      (fun l => !l.isEmpty) = imapNumToWait records W := by
    rw [← hlen]
    refine List.countP_eq_length.mpr ?_
    intro l hl
    rw [List.mem_map] at hl
    obtain ⟨t, -, rfl⟩ := hl
    rw [processTask_ne_nil]
    rfl
  have hdata : ((imapTasks records W qid).map
      (processTask (fun r => (.ok (func (model r)) : Except ε π)))).map queueData =
      (shard_seq records W).map (List.map (fun r => some (func (model r)))) := by
    rw [List.map_map, imapTasks, List.map_map]
    refine List.map_congr_left ?_
    intro shard _
    show queueData (processTask (fun r => (.ok (func (model r)) : Except ε π))
      ⟨qid, shard⟩) = _
    rw [queueData_processTask_ok]
  have hperm2 : c.Perm (records.map (fun r => some (func (model r)))) := by
    rw [hdata, ← List.map_flatten] at hperm
    exact hperm.trans ((shard_seq_flatten_perm W hW records).map _)
  refine ⟨c, ?_, ?_, hperm2⟩
  · rw [← hcount]
    exact hc
  · rw [hperm2.length_eq, List.length_map]

/-- Witness for C8: records `[1, 2]`, one worker, transform `r + 1`, the
sequential interleaving — both results arrive and form the expected
multiset. -/
theorem map_returns_all_results_witness :
    1 ≤ 1 ∧
    (∃ collected, roundRobinItems
        (((imapTasks [1, 2] 1 0).map
          (processTask (fun r => (.ok (r + 1) : Except Unit Nat)))).flatten)
        (imapNumToWait [1, 2] 1) = some (.ok collected, []) ∧
      collected.length = ([1, 2] : List Nat).length ∧
      collected.Perm ([1, 2].map (fun r => some (r + 1)))) :=
  ⟨by decide, map_returns_all_results [1, 2] 1 0 (by decide) (fun r => r)
    (fun r => r + 1) _ (interleave_flatten _)⟩

/-- Counterexample to claim C9: on a 1-worker pool, `map([], f)` does not
complete without waiting on a worker message.  `imap` enqueues one
empty-shard `TaskMessage` and passes `num_to_wait = 1` to `round_robin`,
which therefore still waits (`none`) when the worker has produced
nothing. -/
theorem map_empty_not_immediate :
    imapNumToWait ([] : List Nat) 1 = 1 ∧
    imapTasks ([] : List Nat) 1 5 = [⟨5, []⟩] ∧
    roundRobinItems ([] : List (QueueItem Nat Unit)) (imapNumToWait ([] : List Nat) 1) =
      none :=
  ⟨rfl, rfl, rfl⟩

/-- Claim C9 (amended): on a 1-worker pool, `map([], f)` dispatches exactly
one empty-shard task, the worker pushes only the completion marker for it,
and collection returns `[]` as soon as that single marker — the one worker
message it waits for — arrives. -/
theorem map_empty_returns_empty {ρ π ε : Type _} (step : ρ → Except ε π) (qid : Nat) :
    imapTasks ([] : List ρ) 1 qid = [⟨qid, []⟩] ∧
    processTask step (⟨qid, []⟩ : TaskMessage ρ) = [.sentinel] ∧
    roundRobinItems ([(.sentinel : QueueItem π ε)]) (imapNumToWait ([] : List ρ) 1) =
      some (.ok [], []) :=
  ⟨rfl, rfl, rfl⟩

/-- Claim C10: a re-raised error stops collection with everything behind the
error message left in the queue; `_create_result_queue_for_thread` leaves an
existing entry untouched (entries are never removed), so those items
persist; and consumption is strictly front-first — the leftover is a suffix,
and items already enqueued are consumed ahead of (and identically to)
anything appended later, so a stale backlog is consumed first by the same
thread's next call. -/
theorem round_robin_abort_leaves_queue {π ε : Type _} :
    (∀ (m : ResultMessage π ε) (evs : List (QueueItem π ε)) (n : Nat) (e : ε),
      m.exception = some e →
      roundRobinItems (.message m :: evs) (n + 1) = some (.error e, evs)) ∧
    (∀ (reg : Registry π ε) (qid : Nat),
      (lookupQueue reg qid).isSome = true →
      createResultQueueForThread reg qid = reg) ∧
    (∀ (evs : List (QueueItem π ε)) (n : Nat) (r : Except ε (List (Option π)))
      (left : List (QueueItem π ε)),
      roundRobinItems evs n = some (r, left) → left <:+ evs) ∧
    (∀ (evs₁ : List (QueueItem π ε)) (n : Nat) (r : Except ε (List (Option π)))
      (left evs₂ : List (QueueItem π ε)),
      roundRobinItems evs₁ n = some (r, left) →
      roundRobinItems (evs₁ ++ evs₂) n = some (r, left ++ evs₂)) :=
  ⟨fun m evs n e h => roundRobinItems_error m evs n e h,
    fun reg qid h => by rw [createResultQueueForThread, if_pos h],
    roundRobinItems_leftover_suffix,
    roundRobinItems_append⟩

/-- Witness for C10: a concrete abort leaves the trailing completion marker
enqueued, and re-creating the queue for the same caller id keeps the entry
with that marker still in it. -/
theorem round_robin_abort_leaves_queue_witness :
    (⟨3, none, some 9⟩ : ResultMessage Nat Nat).exception = some 9 ∧
    roundRobinItems (QueueItem.message ⟨3, none, some 9⟩ ::
      [(.sentinel : QueueItem Nat Nat)]) (1 + 1) = some (.error 9, [.sentinel]) ∧
    (lookupQueue [(3, [(.sentinel : QueueItem Nat Nat)])] 3).isSome = true ∧
    createResultQueueForThread [(3, [(.sentinel : QueueItem Nat Nat)])] 3 =
      [(3, [.sentinel])] :=
  ⟨rfl, round_robin_abort_leaves_queue.1 ⟨3, none, some 9⟩ [.sentinel] 1 9 rfl,
    rfl, round_robin_abort_leaves_queue.2.1 [(3, [.sentinel])] 3 rfl⟩

end FsdpServer
